import Mathlib

/-!
Verification of the `sha-256` Rust crate (`src/lib.rs`).

The first half of this file is a shallow embedding of the source code:
machine words `u32`/`u64` are represented as `Nat` with explicit reduction
modulo `2^32` (`M32`) and `2^64` (`M64`) wherever the Rust code wraps, the
64-entry `w` schedule array is represented as a total function `Nat → Nat`
updated pointwise, and byte slices are `List Nat`.  Each Rust method of
`impl Sha256` is translated to a Lean definition of the same name.

The second half is an independent reference formalisation of SHA-256,
written from the FIPS 180-4 description in the specification document
(padded byte stream, rolled ascending schedule recurrence, rolled 64-round
compression), followed by the theorems relating the two.
-/

/-- 2^32, the modulus of `u32` arithmetic. -/
def M32 : Nat := 4294967296

/-- 2^64, the modulus of `u64` arithmetic. -/
def M64 : Nat := 18446744073709551616

/-- Wrapping 32-bit addition (`u32::wrapping_add`). -/
def add32 (a b : Nat) : Nat := (a + b) % M32

/-- 32-bit right rotation (`u32::rotate_right`). -/
def rotr (x n : Nat) : Nat := ((x >>> n) ||| (x <<< (32 - n))) % M32

/-- Bitwise complement on 32 bits (`!x` on a `u32`). -/
def not32 (x : Nat) : Nat := x ^^^ 4294967295

/-- Pointwise update of the schedule array, modelling `self.w[i] = v`. -/
def updW (w : Nat → Nat) (i v : Nat) : Nat → Nat := fun j => if j = i then v else w j

/-- `u32::from_be_bytes` on four byte values. -/
def wordBE (b0 b1 b2 b3 : Nat) : Nat := ((b0 * 256 + b1) * 256 + b2) * 256 + b3

/-- The big-endian `u32` formed by the four message bytes at positions
`p, p+1, p+2, p+3` (out-of-range positions read as 0; in-bounds access is
established separately by the checked model). -/
def msgWord (msg : List Nat) (p : Nat) : Nat :=
  wordBE (msg.getD p 0) (msg.getD (p + 1) 0) (msg.getD (p + 2) 0) (msg.getD (p + 3) 0)

/-- `u32::to_be_bytes`. -/
def toBytesBE32 (x : Nat) : List Nat :=
  [(x >>> 24) % 256, (x >>> 16) % 256, (x >>> 8) % 256, x % 256]

/-- The hasher state of `struct Sha256`: the 64-word message schedule and the
eight running hash registers. -/
structure Sha256 where
  w : Nat → Nat
  h0 : Nat
  h1 : Nat
  h2 : Nat
  h3 : Nat
  h4 : Nat
  h5 : Nat
  h6 : Nat
  h7 : Nat

/-- `Sha256::new`: zeroed schedule and zeroed hash registers. -/
def Sha256.new : Sha256 := ⟨fun _ => 0, 0, 0, 0, 0, 0, 0, 0, 0⟩

/-- `Sha256::set_chunk`: copy the 64 message bytes of chunk `index` into
`w[0..16]` as big-endian words. -/
def Sha256.setChunk (s : Sha256) (msg : List Nat) (index : Nat) : Sha256 :=
  let start := index * 64
  { s with w := (List.range' 0 16).foldl (fun v i => updW v i (msgWord msg (start + 4 * i))) s.w }

/-- `Sha256::set_chunk_msg_len`: store the bit length `msg.len() * 8` (as a
`u64`) big-endian into `w[14]` and `w[15]`.  The Rust code round-trips each
half through `to_be_bytes`/`from_be_bytes`, which is the identity on `u32`. -/
def Sha256.setChunkMsgLen (s : Sha256) (msg : List Nat) : Sha256 :=
  let len := (msg.length * 8) % M64
  { s with w := updW (updW s.w 14 (len >>> 32)) 15 (len % M32) }

/-- `Sha256::set_chunk_padding_zeros`: `for i in start..14 { w[i] = 0 }`. -/
def Sha256.setChunkPaddingZeros (s : Sha256) (start : Nat) : Sha256 :=
  { s with w := (List.range' start (14 - start)).foldl (fun v i => updW v i 0) s.w }

/-- `Sha256::set_chunk_padding_start_byte`: `w[0] = 2147483648`. -/
def Sha256.setChunkPaddingStartByte (s : Sha256) : Sha256 :=
  { s with w := updW s.w 0 2147483648 }

/-- `Sha256::set_chunk_last`: copy the trailing partial chunk of the message
into `w`, append the `0x80` marker byte, zero-fill, and place the length
field or a zero word depending on the remaining space. -/
def Sha256.setChunkLast (s : Sha256) (msg : List Nat) (index : Nat) : Sha256 :=
  let msgLen := msg.length
  let start := index * 64
  let nU32s := (msgLen - start) / 4
  let nRemBytes := msgLen % 4
  let endU32s := msgLen - nRemBytes
  let w1 := (List.range' 0 nU32s).foldl (fun v i => updW v i (msgWord msg (start + 4 * i))) s.w
  let bytes : Nat → Nat := fun k =>
    if k < nRemBytes then msg.getD (endU32s + k) 0 else if k = nRemBytes then 128 else 0
  let s2 : Sha256 := { s with w := updW w1 nU32s (wordBE (bytes 0) (bytes 1) (bytes 2) (bytes 3)) }
  let i := nU32s + 1
  let s3 := s2.setChunkPaddingZeros i
  if i ≤ 14 then s3.setChunkMsgLen msg
  else if i = 15 then { s3 with w := updW s3.w 15 0 }
  else s3

/-- The round-constant table `K` (the 64 constants of FIPS 180-4,
written in decimal). -/
def K : Nat → Nat := fun i =>
  [1116352408, 1899447441, 3049323471, 3921009573, 961987163, 1508970993, 2453635748, 2870763221,
   3624381080, 310598401, 607225278, 1426881987, 1925078388, 2162078206, 2614888103, 3248222580,
   3835390401, 4022224774, 264347078, 604807628, 770255983, 1249150122, 1555081692, 1996064986,
   2554220882, 2821834349, 2952996808, 3210313671, 3336571891, 3584528711, 113926993, 338241895,
   666307205, 773529912, 1294757372, 1396182291, 1695183700, 1986661051, 2177026350, 2456956037,
   2730485921, 2820302411, 3259730800, 3345764771, 3516065817, 3600352804, 4094571909, 275423344,
   430227734, 506948616, 659060556, 883997877, 958139571, 1322822218, 1537002063, 1747873779,
   1955562222, 2024104815, 2227730452, 2361852424, 2428436474, 2756734187, 3204031479, 3329325298].getD i 0

/-- One iteration of the schedule-expansion loop body at write index `m`
(in the source, the iteration writing `w[i + k]` reads
`w[i + k - 15]`, `w[i + k - 2]`, `w[i + k - 16]` and `w[i + k - 7]`,
spelled there with the subtractions folded into the offset from the loop
counter `i`, e.g. `w[i - 14]` for `w[(i + 1) - 15]`). -/
def schedIterAt (w : Nat → Nat) (m : Nat) : Nat → Nat :=
  let w15 := w (m - 15)
  let s0 := rotr w15 7 ^^^ rotr w15 18 ^^^ (w15 >>> 3)
  let w2 := w (m - 2)
  let s1 := rotr w2 17 ^^^ rotr w2 19 ^^^ (w2 >>> 10)
  updW w m (add32 (add32 (add32 (w (m - 16)) s0) (w (m - 7))) s1)

/-- One 8-iteration block of the partially unrolled schedule-expansion loop in
`Sha256::process_chunk` (loop counter `i ∈ 16, 24, ..., 56`): the iteration
body repeated verbatim at write indices `i, i+1, ..., i+7`, each reading the
array state left by the previous iteration. -/
def scheduleBlock (w : Nat → Nat) (i : Nat) : Nat → Nat :=
  schedIterAt (schedIterAt (schedIterAt (schedIterAt (schedIterAt (schedIterAt
    (schedIterAt (schedIterAt w i) (i + 1)) (i + 2)) (i + 3)) (i + 4)) (i + 5))
    (i + 6)) (i + 7)

/-- The full schedule-expansion loop `for i in (16..64).step_by(8)`. -/
def scheduleUnrolled (w : Nat → Nat) : Nat → Nat :=
  [16, 24, 32, 40, 48, 56].foldl scheduleBlock w

/-- The eight working registers `a..h` of the compression loop. -/
structure Regs where
  a : Nat
  b : Nat
  c : Nat
  d : Nat
  e : Nat
  f : Nat
  g : Nat
  h : Nat
deriving DecidableEq

/-- The body of one compression iteration as written (eight times over) in
`Sha256::process_chunk`, at round index `i`. -/
def compressIter (w : Nat → Nat) (r : Regs) (i : Nat) : Regs :=
  let s1 := rotr r.e 6 ^^^ rotr r.e 11 ^^^ rotr r.e 25
  let ch := (r.e &&& r.f) ^^^ (not32 r.e &&& r.g)
  let temp1 := add32 (add32 (add32 (add32 r.h s1) ch) (K i)) (w i)
  let s0 := rotr r.a 2 ^^^ rotr r.a 13 ^^^ rotr r.a 22
  let maj := (r.a &&& r.b) ^^^ (r.a &&& r.c) ^^^ (r.b &&& r.c)
  let temp2 := add32 s0 maj
  ⟨add32 temp1 temp2, r.a, r.b, r.c, add32 r.d temp1, r.e, r.f, r.g⟩

/-- One 8-iteration block of the partially unrolled compression loop
(loop counter `i ∈ 0, 8, ..., 56`); the source repeats the iteration body
verbatim at indices `i, i+1, ..., i+7`. -/
def compressBlock (w : Nat → Nat) (r : Regs) (i : Nat) : Regs :=
  compressIter w (compressIter w (compressIter w (compressIter w
    (compressIter w (compressIter w (compressIter w (compressIter w r
      i) (i + 1)) (i + 2)) (i + 3)) (i + 4)) (i + 5)) (i + 6)) (i + 7)

/-- The full compression loop `for i in (0..64).step_by(8)`. -/
def compressLoop (w : Nat → Nat) (r : Regs) : Regs :=
  [0, 8, 16, 24, 32, 40, 48, 56].foldl (compressBlock w) r

/-- `Sha256::process_chunk`: expand the schedule in place, run the 64
compression rounds from the current hash registers, then add the final
working registers back into the hash registers (feed-forward). -/
def Sha256.processChunk (s : Sha256) : Sha256 :=
  let w := scheduleUnrolled s.w
  let r := compressLoop w ⟨s.h0, s.h1, s.h2, s.h3, s.h4, s.h5, s.h6, s.h7⟩
  { w := w
    h0 := add32 s.h0 r.a
    h1 := add32 s.h1 r.b
    h2 := add32 s.h2 r.c
    h3 := add32 s.h3 r.d
    h4 := add32 s.h4 r.e
    h5 := add32 s.h5 r.f
    h6 := add32 s.h6 r.g
    h7 := add32 s.h7 r.h }

/-- The tail-chunk synthesis inside `Sha256::digest` (the `msg_rem_len == 0`
versus `else` branch before the guaranteed `process_chunk` call). -/
def Sha256.setTail (s : Sha256) (msg : List Nat) : Sha256 :=
  if msg.length % 64 = 0 then
    ((s.setChunkPaddingStartByte).setChunkPaddingZeros 1).setChunkMsgLen msg
  else
    s.setChunkLast msg (msg.length / 64)

/-- The second tail chunk inside `Sha256::digest` (the `msg_rem_len > 55`
branch): all-zero words then the length field. -/
def Sha256.setTail2 (s : Sha256) (msg : List Nat) : Sha256 :=
  (s.setChunkPaddingZeros 0).setChunkMsgLen msg

/-- `Sha256::digest`, state part, instrumented with a counter that increments
at each `process_chunk` call site: reset the hash registers to the IV,
process every saturated chunk, process the synthesised tail chunk, and
process the extra length chunk when the remainder exceeds 55 bytes. -/
def Sha256.digestRun (s : Sha256) (msg : List Nat) : Sha256 × Nat :=
  let s0 : Sha256 := { s with
    h0 := 0x6a09e667, h1 := 0xbb67ae85, h2 := 0x3c6ef372, h3 := 0xa54ff53a,
    h4 := 0x510e527f, h5 := 0x9b05688c, h6 := 0x1f83d9ab, h7 := 0x5be0cd19 }
  let nChunksSaturated := msg.length / 64
  let p1 := (List.range' 0 nChunksSaturated).foldl
    (fun (p : Sha256 × Nat) i => ((p.1.setChunk msg i).processChunk, p.2 + 1)) (s0, 0)
  let p2 := ((p1.1.setTail msg).processChunk, p1.2 + 1)
  if 55 < msg.length % 64 then ((p2.1.setTail2 msg).processChunk, p2.2 + 1) else p2

/-- `Sha256::digest`: the 32 output bytes, each hash register big-endian. -/
def Sha256.digest (s : Sha256) (msg : List Nat) : List Nat :=
  let t := (s.digestRun msg).1
  toBytesBE32 t.h0 ++ toBytesBE32 t.h1 ++ toBytesBE32 t.h2 ++ toBytesBE32 t.h3 ++
  toBytesBE32 t.h4 ++ toBytesBE32 t.h5 ++ toBytesBE32 t.h6 ++ toBytesBE32 t.h7

/-!
Reference formalisation, written from the FIPS 180-4 description in the
specification (sections 4.1-4.4): explicit padded byte stream, rolled
ascending schedule recurrence, rolled 64-round compression with
feed-forward, and one compression pass per 64-byte block of the padded
message.
-/

/-- σ0 from the specification. -/
def sigma0 (x : Nat) : Nat := rotr x 7 ^^^ rotr x 18 ^^^ (x >>> 3)

/-- σ1 from the specification. -/
def sigma1 (x : Nat) : Nat := rotr x 17 ^^^ rotr x 19 ^^^ (x >>> 10)

/-- Σ0 from the specification. -/
def bigSigma0 (x : Nat) : Nat := rotr x 2 ^^^ rotr x 13 ^^^ rotr x 22

/-- Σ1 from the specification. -/
def bigSigma1 (x : Nat) : Nat := rotr x 6 ^^^ rotr x 11 ^^^ rotr x 25

/-- Ch from the specification. -/
def chFun (x y z : Nat) : Nat := (x &&& y) ^^^ (not32 x &&& z)

/-- Maj from the specification. -/
def majFun (x y z : Nat) : Nat := (x &&& y) ^^^ (x &&& z) ^^^ (y &&& z)

/-- One step of the rolled ascending schedule recurrence:
`W[i] = W[i-16] + σ0(W[i-15]) + W[i-7] + σ1(W[i-2])`, additions modulo 2^32. -/
def scheduleStep (w : Nat → Nat) (i : Nat) : Nat → Nat :=
  updW w i (add32 (add32 (add32 (w (i - 16)) (sigma0 (w (i - 15)))) (w (i - 7))) (sigma1 (w (i - 2))))

/-- The rolled schedule expansion: apply the recurrence for `i = 16, ..., 63`
in ascending index order. -/
def scheduleRolled (w : Nat → Nat) : Nat → Nat :=
  (List.range' 16 48).foldl scheduleStep w

/-- One compression round from the specification:
`T1 = h + Σ1(e) + Ch(e,f,g) + K[i] + W[i]`, `T2 = Σ0(a) + Maj(a,b,c)`,
`(h,g,f,e,d,c,b,a) = (g,f,e, d+T1, c,b,a, T1+T2)`. -/
def refRound (w : Nat → Nat) (r : Regs) (i : Nat) : Regs :=
  let t1 := add32 (add32 (add32 (add32 r.h (bigSigma1 r.e)) (chFun r.e r.f r.g)) (K i)) (w i)
  let t2 := add32 (bigSigma0 r.a) (majFun r.a r.b r.c)
  ⟨add32 t1 t2, r.a, r.b, r.c, add32 r.d t1, r.e, r.f, r.g⟩

/-- The rolled 64-round compression loop, rounds in index order `0..63`. -/
def refRoundsAll (w : Nat → Nat) (r : Regs) : Regs :=
  (List.range' 0 64).foldl (refRound w) r

/-- One full compression pass from the specification: working registers start
at the current hash value, 64 rounds run in order, and each hash register is
updated by wrapping addition of the corresponding final working register. -/
def refCompress (hv : Regs) (block : Nat → Nat) : Regs :=
  let w := scheduleRolled block
  let r := refRoundsAll w hv
  ⟨add32 hv.a r.a, add32 hv.b r.b, add32 hv.c r.c, add32 hv.d r.d,
   add32 hv.e r.e, add32 hv.f r.f, add32 hv.g r.g, add32 hv.h r.h⟩

/-- The number of zero padding bytes between the `0x80` marker and the
length field: the least `k` with `L + 1 + k ≡ 56 (mod 64)`. -/
def padZeroCount (L : Nat) : Nat := (119 - L % 64) % 64

/-- The 8-byte big-endian encoding of the bit length `L * 8` as a `u64`. -/
def lenBytesBE (L : Nat) : List Nat :=
  let n := (L * 8) % M64
  [(n >>> 56) % 256, (n >>> 48) % 256, (n >>> 40) % 256, (n >>> 32) % 256,
   (n >>> 24) % 256, (n >>> 16) % 256, (n >>> 8) % 256, n % 256]

/-- The padded message: the message, the `0x80` marker, the minimal run of
zero bytes, then the 8-byte big-endian bit length. -/
def refPad (msg : List Nat) : List Nat :=
  msg ++ 128 :: (List.replicate (padZeroCount msg.length) 0 ++ lenBytesBE msg.length)

/-- The number of 64-byte blocks of the padded message. -/
def refNumBlocks (msg : List Nat) : Nat := (refPad msg).length / 64

/-- Word `j` of block `b` of the padded message, read big-endian. -/
def refBlockWords (msg : List Nat) (b : Nat) : Nat → Nat :=
  fun j => msgWord (refPad msg) (64 * b + 4 * j)

/-- The initial hash value H0..H7 from the specification. -/
def refIV : Regs :=
  ⟨0x6a09e667, 0xbb67ae85, 0x3c6ef372, 0xa54ff53a, 0x510e527f, 0x9b05688c, 0x1f83d9ab, 0x5be0cd19⟩

/-- The reference SHA-256 digest: compress every block of the padded message
in order starting from the IV, then serialise H0..H7 big-endian. -/
def refDigest (msg : List Nat) : List Nat :=
  let hv := (List.range' 0 (refNumBlocks msg)).foldl
    (fun hv b => refCompress hv (refBlockWords msg b)) refIV
  toBytesBE32 hv.a ++ toBytesBE32 hv.b ++ toBytesBE32 hv.c ++ toBytesBE32 hv.d ++
  toBytesBE32 hv.e ++ toBytesBE32 hv.f ++ toBytesBE32 hv.g ++ toBytesBE32 hv.h

/-! Pointwise characterisations of the schedule-array updates. -/

theorem updW_self (w : Nat → Nat) (i v : Nat) : updW w i v i = v := by
  simp [updW]

theorem updW_ne (w : Nat → Nat) (i v j : Nat) (h : j ≠ i) : updW w i v j = w j := by
  simp [updW, h]

theorem foldl_updW_apply (f : Nat → Nat) :
    ∀ (n s : Nat) (w : Nat → Nat) (j : Nat),
      ((List.range' s n).foldl (fun v i => updW v i (f i)) w) j
        = if s ≤ j ∧ j < s + n then f j else w j := by
  intro n
  induction n with
  | zero =>
    intro s w j
    rw [if_neg (by omega)]
    rfl
  | succ n ih =>
    intro s w j
    rw [List.range'_succ, List.foldl_cons, ih]
    by_cases h1 : s + 1 ≤ j ∧ j < s + 1 + n
    · rw [if_pos h1, if_pos (by omega)]
    · rw [if_neg h1]
      by_cases h2 : j = s
      · subst h2
        rw [updW_self, if_pos (by omega)]
      · rw [updW_ne _ _ _ _ h2, if_neg (by omega)]

theorem setChunk_w (s : Sha256) (msg : List Nat) (index j : Nat) :
    (s.setChunk msg index).w j =
      if j < 16 then msgWord msg (index * 64 + 4 * j) else s.w j := by
  show ((List.range' 0 16).foldl
      (fun v i => updW v i (msgWord msg (index * 64 + 4 * i))) s.w) j = _
  rw [foldl_updW_apply (fun i => msgWord msg (index * 64 + 4 * i)) 16 0 s.w j]
  by_cases h : j < 16
  · rw [if_pos (by omega), if_pos h]
  · rw [if_neg (by omega), if_neg h]

theorem setChunk_h (s : Sha256) (msg : List Nat) (index : Nat) :
    (s.setChunk msg index).h0 = s.h0 ∧ (s.setChunk msg index).h1 = s.h1 ∧
    (s.setChunk msg index).h2 = s.h2 ∧ (s.setChunk msg index).h3 = s.h3 ∧
    (s.setChunk msg index).h4 = s.h4 ∧ (s.setChunk msg index).h5 = s.h5 ∧
    (s.setChunk msg index).h6 = s.h6 ∧ (s.setChunk msg index).h7 = s.h7 := by
  refine ⟨rfl, rfl, rfl, rfl, rfl, rfl, rfl, rfl⟩

theorem setChunkMsgLen_w (s : Sha256) (msg : List Nat) (j : Nat) :
    (s.setChunkMsgLen msg).w j =
      if j = 15 then ((msg.length * 8) % M64) % M32
      else if j = 14 then ((msg.length * 8) % M64) >>> 32
      else s.w j := by
  show (updW (updW s.w 14 (((msg.length * 8) % M64) >>> 32)) 15 (((msg.length * 8) % M64) % M32)) j = _
  by_cases h15 : j = 15
  · subst h15; rw [updW_self, if_pos rfl]
  · rw [updW_ne _ _ _ _ h15, if_neg h15]
    by_cases h14 : j = 14
    · subst h14; rw [updW_self, if_pos rfl]
    · rw [updW_ne _ _ _ _ h14, if_neg h14]

theorem setChunkPaddingZeros_w (s : Sha256) (start j : Nat) :
    (s.setChunkPaddingZeros start).w j =
      if start ≤ j ∧ j < 14 then 0 else s.w j := by
  show ((List.range' start (14 - start)).foldl (fun v i => updW v i 0) s.w) j = _
  have h := foldl_updW_apply (fun _ => 0) (14 - start) start s.w j
  rw [h]
  by_cases hc : start ≤ j ∧ j < 14
  · rw [if_pos (by omega), if_pos hc]
  · rw [if_neg (by omega), if_neg hc]

theorem setChunkPaddingStartByte_w (s : Sha256) (j : Nat) :
    (s.setChunkPaddingStartByte).w j = if j = 0 then 2147483648 else s.w j := by
  show (updW s.w 0 2147483648) j = _
  by_cases h : j = 0
  · subst h; rw [updW_self, if_pos rfl]
  · rw [updW_ne _ _ _ _ h, if_neg h]

/-! Spec-side description of the synthesised tail chunks. -/

/-- Byte `t` (0-63) of the tail chunk when the length field fits: remaining
message bytes, the 0x80 marker, zeros, then the 8-byte big-endian bit length
in the last 8 bytes. -/
def tailByteWithLen (msg : List Nat) (t : Nat) : Nat :=
  let L := msg.length
  let rem := L % 64
  if t < rem then msg.getD (L - rem + t) 0
  else if t = rem then 128
  else if t < 56 then 0
  else (lenBytesBE L).getD (t - 56) 0

/-- Byte `t` (0-63) of the first tail chunk when the length field does not
fit: remaining message bytes, the 0x80 marker, then zeros only. -/
def tailByteNoLen (msg : List Nat) (t : Nat) : Nat :=
  let L := msg.length
  let rem := L % 64
  if t < rem then msg.getD (L - rem + t) 0
  else if t = rem then 128
  else 0

/-- Byte `t` (0-63) of the second tail chunk: 56 zero bytes then the 8-byte
big-endian bit length. -/
def tail2Byte (msg : List Nat) (t : Nat) : Nat :=
  if t < 56 then 0 else (lenBytesBE msg.length).getD (t - 56) 0

theorem wordBE_congr {a0 a1 a2 a3 b0 b1 b2 b3 : Nat}
    (h0 : a0 = b0) (h1 : a1 = b1) (h2 : a2 = b2) (h3 : a3 = b3) :
    wordBE a0 a1 a2 a3 = wordBE b0 b1 b2 b3 := by
  rw [h0, h1, h2, h3]

theorem wordBE_len_hi (n : Nat) (h : n < M64) :
    wordBE ((n >>> 56) % 256) ((n >>> 48) % 256) ((n >>> 40) % 256) ((n >>> 32) % 256)
      = n >>> 32 := by
  simp only [M64] at h
  simp only [wordBE, Nat.shiftRight_eq_div_pow]
  omega

theorem wordBE_len_lo (n : Nat) (h : n < M64) :
    wordBE ((n >>> 24) % 256) ((n >>> 16) % 256) ((n >>> 8) % 256) (n % 256)
      = n % M32 := by
  simp only [wordBE, Nat.shiftRight_eq_div_pow, M32, M64] at *
  omega

theorem tbwl_msg (msg : List Nat) (t : Nat) (h : t < msg.length % 64) :
    tailByteWithLen msg t = msg.getD (msg.length - msg.length % 64 + t) 0 := by
  simp only [tailByteWithLen]
  rw [if_pos h]

theorem tbwl_marker (msg : List Nat) (t : Nat) (h : t = msg.length % 64) :
    tailByteWithLen msg t = 128 := by
  simp only [tailByteWithLen]
  rw [if_neg (by omega), if_pos h]

theorem tbwl_zero (msg : List Nat) (t : Nat) (h1 : msg.length % 64 < t) (h2 : t < 56) :
    tailByteWithLen msg t = 0 := by
  simp only [tailByteWithLen]
  rw [if_neg (by omega), if_neg (by omega), if_pos h2]

theorem tbwl_len (msg : List Nat) (t : Nat) (h1 : msg.length % 64 ≤ 55) (h2 : 56 ≤ t) :
    tailByteWithLen msg t = (lenBytesBE msg.length).getD (t - 56) 0 := by
  simp only [tailByteWithLen]
  rw [if_neg (by omega), if_neg (by omega), if_neg (by omega)]

theorem bitLen_lt (L : Nat) : (L * 8) % M64 < M64 := by
  apply Nat.mod_lt
  simp [M64]

theorem lenWord_hi (L : Nat) :
    wordBE ((lenBytesBE L).getD 0 0) ((lenBytesBE L).getD 1 0)
      ((lenBytesBE L).getD 2 0) ((lenBytesBE L).getD 3 0) = ((L * 8) % M64) >>> 32 := by
  simp only [lenBytesBE, List.getD]
  exact wordBE_len_hi _ (bitLen_lt L)

theorem lenWord_lo (L : Nat) :
    wordBE ((lenBytesBE L).getD 4 0) ((lenBytesBE L).getD 5 0)
      ((lenBytesBE L).getD 6 0) ((lenBytesBE L).getD 7 0) = ((L * 8) % M64) % M32 := by
  simp only [lenBytesBE, List.getD]
  exact wordBE_len_lo _ (bitLen_lt L)

theorem setTail_w_zero (s : Sha256) (msg : List Nat) (j : Nat)
    (hz : msg.length % 64 = 0) (hj : j < 16) :
    (s.setTail msg).w j =
      wordBE (tailByteWithLen msg (4 * j)) (tailByteWithLen msg (4 * j + 1))
        (tailByteWithLen msg (4 * j + 2)) (tailByteWithLen msg (4 * j + 3)) := by
  simp only [Sha256.setTail]
  rw [if_pos hz, setChunkMsgLen_w]
  by_cases h15 : j = 15
  · subst h15
    rw [if_pos rfl]
    rw [tbwl_len msg _ (by omega) (by omega), tbwl_len msg _ (by omega) (by omega),
        tbwl_len msg _ (by omega) (by omega), tbwl_len msg _ (by omega) (by omega)]
    have := lenWord_lo msg.length
    simp only [show 4 * 15 - 56 = 4 from rfl, show 4 * 15 + 1 - 56 = 5 from rfl,
      show 4 * 15 + 2 - 56 = 6 from rfl, show 4 * 15 + 3 - 56 = 7 from rfl]
    exact this.symm
  · rw [if_neg h15]
    by_cases h14 : j = 14
    · subst h14
      rw [if_pos rfl]
      rw [tbwl_len msg _ (by omega) (by omega), tbwl_len msg _ (by omega) (by omega),
          tbwl_len msg _ (by omega) (by omega), tbwl_len msg _ (by omega) (by omega)]
      have := lenWord_hi msg.length
      simp only [show 4 * 14 - 56 = 0 from rfl, show 4 * 14 + 1 - 56 = 1 from rfl,
        show 4 * 14 + 2 - 56 = 2 from rfl, show 4 * 14 + 3 - 56 = 3 from rfl]
      exact this.symm
    · rw [if_neg h14, setChunkPaddingZeros_w, setChunkPaddingStartByte_w]
      by_cases h0 : j = 0
      · subst h0
        rw [if_neg (by omega), if_pos rfl]
        rw [tbwl_marker msg _ (by omega), tbwl_zero msg _ (by omega) (by omega),
            tbwl_zero msg _ (by omega) (by omega), tbwl_zero msg _ (by omega) (by omega)]
        rfl
      · rw [if_pos (by omega)]
        rw [tbwl_zero msg _ (by omega) (by omega), tbwl_zero msg _ (by omega) (by omega),
            tbwl_zero msg _ (by omega) (by omega), tbwl_zero msg _ (by omega) (by omega)]
        rfl

theorem getD_congr (msg : List Nat) (a b : Nat) (h : a = b) :
    msg.getD a 0 = msg.getD b 0 := by
  rw [h]

set_option maxHeartbeats 1000000 in
theorem setTail_w_pos (s : Sha256) (msg : List Nat) (j : Nat)
    (hz : ¬ msg.length % 64 = 0) (hrem : msg.length % 64 ≤ 55) (hj : j < 16) :
    (s.setTail msg).w j =
      wordBE (tailByteWithLen msg (4 * j)) (tailByteWithLen msg (4 * j + 1))
        (tailByteWithLen msg (4 * j + 2)) (tailByteWithLen msg (4 * j + 3)) := by
  simp only [Sha256.setTail]
  rw [if_neg hz]
  simp only [Sha256.setChunkLast]
  rw [if_pos (by omega : (msg.length - msg.length / 64 * 64) / 4 + 1 ≤ 14)]
  rw [setChunkMsgLen_w]
  by_cases h15 : j = 15
  · subst h15
    rw [if_pos rfl]
    rw [tbwl_len msg _ (by omega) (by omega), tbwl_len msg _ (by omega) (by omega),
        tbwl_len msg _ (by omega) (by omega), tbwl_len msg _ (by omega) (by omega)]
    have := lenWord_lo msg.length
    simp only [show 4 * 15 - 56 = 4 from rfl, show 4 * 15 + 1 - 56 = 5 from rfl,
      show 4 * 15 + 2 - 56 = 6 from rfl, show 4 * 15 + 3 - 56 = 7 from rfl]
    exact this.symm
  · rw [if_neg h15]
    by_cases h14 : j = 14
    · subst h14
      rw [if_pos rfl]
      rw [tbwl_len msg _ (by omega) (by omega), tbwl_len msg _ (by omega) (by omega),
          tbwl_len msg _ (by omega) (by omega), tbwl_len msg _ (by omega) (by omega)]
      have := lenWord_hi msg.length
      simp only [show 4 * 14 - 56 = 0 from rfl, show 4 * 14 + 1 - 56 = 1 from rfl,
        show 4 * 14 + 2 - 56 = 2 from rfl, show 4 * 14 + 3 - 56 = 3 from rfl]
      exact this.symm
    · rw [if_neg h14, setChunkPaddingZeros_w]
      by_cases hzero : (msg.length - msg.length / 64 * 64) / 4 + 1 ≤ j ∧ j < 14
      · rw [if_pos hzero]
        rw [tbwl_zero msg _ (by omega) (by omega), tbwl_zero msg _ (by omega) (by omega),
            tbwl_zero msg _ (by omega) (by omega), tbwl_zero msg _ (by omega) (by omega)]
        rfl
      · rw [if_neg hzero]
        dsimp only
        by_cases hmk : j = (msg.length - msg.length / 64 * 64) / 4
        · rw [hmk, updW_self]
          have h4 : msg.length % 4 = 0 ∨ msg.length % 4 = 1 ∨ msg.length % 4 = 2 ∨
              msg.length % 4 = 3 := by omega
          rcases h4 with h4 | h4 | h4 | h4
          · rw [if_neg (by omega), if_pos (by omega), if_neg (by omega), if_neg (by omega),
                if_neg (by omega), if_neg (by omega), if_neg (by omega), if_neg (by omega)]
            rw [tbwl_marker msg _ (by omega), tbwl_zero msg _ (by omega) (by omega),
                tbwl_zero msg _ (by omega) (by omega), tbwl_zero msg _ (by omega) (by omega)]
          · rw [if_pos (by omega), if_neg (by omega), if_pos (by omega), if_neg (by omega),
                if_neg (by omega), if_neg (by omega), if_neg (by omega)]
            rw [tbwl_msg msg _ (by omega), tbwl_marker msg _ (by omega),
                tbwl_zero msg _ (by omega) (by omega), tbwl_zero msg _ (by omega) (by omega)]
            exact wordBE_congr (getD_congr msg _ _ (by omega)) rfl rfl rfl
          · rw [if_pos (by omega), if_pos (by omega), if_neg (by omega), if_pos (by omega),
                if_neg (by omega), if_neg (by omega)]
            rw [tbwl_msg msg _ (by omega), tbwl_msg msg _ (by omega),
                tbwl_marker msg _ (by omega), tbwl_zero msg _ (by omega) (by omega)]
            exact wordBE_congr (getD_congr msg _ _ (by omega)) (getD_congr msg _ _ (by omega))
              rfl rfl
          · rw [if_pos (by omega), if_pos (by omega), if_pos (by omega), if_neg (by omega),
                if_pos (by omega)]
            rw [tbwl_msg msg _ (by omega), tbwl_msg msg _ (by omega),
                tbwl_msg msg _ (by omega), tbwl_marker msg _ (by omega)]
            exact wordBE_congr (getD_congr msg _ _ (by omega)) (getD_congr msg _ _ (by omega))
              (getD_congr msg _ _ (by omega)) rfl
        · rw [updW_ne _ _ _ _ hmk]
          rw [foldl_updW_apply (fun i => msgWord msg (msg.length / 64 * 64 + 4 * i))]
          rw [if_pos (by omega)]
          rw [tbwl_msg msg _ (by omega), tbwl_msg msg _ (by omega),
              tbwl_msg msg _ (by omega), tbwl_msg msg _ (by omega)]
          exact wordBE_congr (getD_congr msg _ _ (by omega)) (getD_congr msg _ _ (by omega))
            (getD_congr msg _ _ (by omega)) (getD_congr msg _ _ (by omega))

theorem tbnl_msg (msg : List Nat) (t : Nat) (h : t < msg.length % 64) :
    tailByteNoLen msg t = msg.getD (msg.length - msg.length % 64 + t) 0 := by
  simp only [tailByteNoLen]
  rw [if_pos h]

theorem tbnl_marker (msg : List Nat) (t : Nat) (h : t = msg.length % 64) :
    tailByteNoLen msg t = 128 := by
  simp only [tailByteNoLen]
  rw [if_neg (by omega), if_pos h]

theorem tbnl_zero (msg : List Nat) (t : Nat) (h : msg.length % 64 < t) :
    tailByteNoLen msg t = 0 := by
  simp only [tailByteNoLen]
  rw [if_neg (by omega), if_neg (by omega)]

set_option maxHeartbeats 1000000 in
theorem setTail_w_gt (s : Sha256) (msg : List Nat) (j : Nat)
    (hrem : 56 ≤ msg.length % 64) (hj : j < 16) :
    (s.setTail msg).w j =
      wordBE (tailByteNoLen msg (4 * j)) (tailByteNoLen msg (4 * j + 1))
        (tailByteNoLen msg (4 * j + 2)) (tailByteNoLen msg (4 * j + 3)) := by
  simp only [Sha256.setTail]
  rw [if_neg (by omega)]
  simp only [Sha256.setChunkLast]
  rw [if_neg (by omega : ¬ ((msg.length - msg.length / 64 * 64) / 4 + 1 ≤ 14))]
  have h4 : msg.length % 4 = 0 ∨ msg.length % 4 = 1 ∨ msg.length % 4 = 2 ∨
      msg.length % 4 = 3 := by omega
  by_cases hA : (msg.length - msg.length / 64 * 64) / 4 + 1 = 15
  · -- remainder 56-59: marker word lands in w[14], w[15] is zeroed
    rw [if_pos hA]
    by_cases h15 : j = 15
    · subst h15
      dsimp only
      rw [updW_self]
      rw [tbnl_zero msg _ (by omega), tbnl_zero msg _ (by omega),
          tbnl_zero msg _ (by omega), tbnl_zero msg _ (by omega)]
      rfl
    · dsimp only
      rw [updW_ne _ _ _ _ h15, setChunkPaddingZeros_w, if_neg (by omega)]
      dsimp only
      by_cases hmk : j = (msg.length - msg.length / 64 * 64) / 4
      · rw [hmk, updW_self]
        rcases h4 with h4 | h4 | h4 | h4
        · rw [if_neg (by omega), if_pos (by omega), if_neg (by omega), if_neg (by omega),
              if_neg (by omega), if_neg (by omega), if_neg (by omega), if_neg (by omega)]
          rw [tbnl_marker msg _ (by omega), tbnl_zero msg _ (by omega),
              tbnl_zero msg _ (by omega), tbnl_zero msg _ (by omega)]
        · rw [if_pos (by omega), if_neg (by omega), if_pos (by omega), if_neg (by omega),
              if_neg (by omega), if_neg (by omega), if_neg (by omega)]
          rw [tbnl_msg msg _ (by omega), tbnl_marker msg _ (by omega),
              tbnl_zero msg _ (by omega), tbnl_zero msg _ (by omega)]
          exact wordBE_congr (getD_congr msg _ _ (by omega)) rfl rfl rfl
        · rw [if_pos (by omega), if_pos (by omega), if_neg (by omega), if_pos (by omega),
              if_neg (by omega), if_neg (by omega)]
          rw [tbnl_msg msg _ (by omega), tbnl_msg msg _ (by omega),
              tbnl_marker msg _ (by omega), tbnl_zero msg _ (by omega)]
          exact wordBE_congr (getD_congr msg _ _ (by omega)) (getD_congr msg _ _ (by omega))
            rfl rfl
        · rw [if_pos (by omega), if_pos (by omega), if_pos (by omega), if_neg (by omega),
              if_pos (by omega)]
          rw [tbnl_msg msg _ (by omega), tbnl_msg msg _ (by omega),
              tbnl_msg msg _ (by omega), tbnl_marker msg _ (by omega)]
          exact wordBE_congr (getD_congr msg _ _ (by omega)) (getD_congr msg _ _ (by omega))
            (getD_congr msg _ _ (by omega)) rfl
      · rw [updW_ne _ _ _ _ hmk]
        rw [foldl_updW_apply (fun i => msgWord msg (msg.length / 64 * 64 + 4 * i))]
        rw [if_pos (by omega)]
        rw [tbnl_msg msg _ (by omega), tbnl_msg msg _ (by omega),
            tbnl_msg msg _ (by omega), tbnl_msg msg _ (by omega)]
        exact wordBE_congr (getD_congr msg _ _ (by omega)) (getD_congr msg _ _ (by omega))
          (getD_congr msg _ _ (by omega)) (getD_congr msg _ _ (by omega))
  · -- remainder 60-63: marker word lands in w[15]
    rw [if_neg hA]
    rw [setChunkPaddingZeros_w, if_neg (by omega)]
    dsimp only
    by_cases hmk : j = (msg.length - msg.length / 64 * 64) / 4
    · rw [hmk, updW_self]
      rcases h4 with h4 | h4 | h4 | h4
      · rw [if_neg (by omega), if_pos (by omega), if_neg (by omega), if_neg (by omega),
            if_neg (by omega), if_neg (by omega), if_neg (by omega), if_neg (by omega)]
        rw [tbnl_marker msg _ (by omega), tbnl_zero msg _ (by omega),
            tbnl_zero msg _ (by omega), tbnl_zero msg _ (by omega)]
      · rw [if_pos (by omega), if_neg (by omega), if_pos (by omega), if_neg (by omega),
            if_neg (by omega), if_neg (by omega), if_neg (by omega)]
        rw [tbnl_msg msg _ (by omega), tbnl_marker msg _ (by omega),
            tbnl_zero msg _ (by omega), tbnl_zero msg _ (by omega)]
        exact wordBE_congr (getD_congr msg _ _ (by omega)) rfl rfl rfl
      · rw [if_pos (by omega), if_pos (by omega), if_neg (by omega), if_pos (by omega),
            if_neg (by omega), if_neg (by omega)]
        rw [tbnl_msg msg _ (by omega), tbnl_msg msg _ (by omega),
            tbnl_marker msg _ (by omega), tbnl_zero msg _ (by omega)]
        exact wordBE_congr (getD_congr msg _ _ (by omega)) (getD_congr msg _ _ (by omega))
          rfl rfl
      · rw [if_pos (by omega), if_pos (by omega), if_pos (by omega), if_neg (by omega),
            if_pos (by omega)]
        rw [tbnl_msg msg _ (by omega), tbnl_msg msg _ (by omega),
            tbnl_msg msg _ (by omega), tbnl_marker msg _ (by omega)]
        exact wordBE_congr (getD_congr msg _ _ (by omega)) (getD_congr msg _ _ (by omega))
          (getD_congr msg _ _ (by omega)) rfl
    · rw [updW_ne _ _ _ _ hmk]
      rw [foldl_updW_apply (fun i => msgWord msg (msg.length / 64 * 64 + 4 * i))]
      rw [if_pos (by omega)]
      rw [tbnl_msg msg _ (by omega), tbnl_msg msg _ (by omega),
          tbnl_msg msg _ (by omega), tbnl_msg msg _ (by omega)]
      exact wordBE_congr (getD_congr msg _ _ (by omega)) (getD_congr msg _ _ (by omega))
        (getD_congr msg _ _ (by omega)) (getD_congr msg _ _ (by omega))

theorem setTail2_w (s : Sha256) (msg : List Nat) (j : Nat) (hj : j < 16) :
    (s.setTail2 msg).w j =
      wordBE (tail2Byte msg (4 * j)) (tail2Byte msg (4 * j + 1))
        (tail2Byte msg (4 * j + 2)) (tail2Byte msg (4 * j + 3)) := by
  simp only [Sha256.setTail2, tail2Byte]
  rw [setChunkMsgLen_w]
  by_cases h15 : j = 15
  · subst h15
    rw [if_pos rfl]
    rw [if_neg (by omega), if_neg (by omega), if_neg (by omega), if_neg (by omega)]
    have := lenWord_lo msg.length
    simp only [show 4 * 15 - 56 = 4 from rfl, show 4 * 15 + 1 - 56 = 5 from rfl,
      show 4 * 15 + 2 - 56 = 6 from rfl, show 4 * 15 + 3 - 56 = 7 from rfl]
    exact this.symm
  · rw [if_neg h15]
    by_cases h14 : j = 14
    · subst h14
      rw [if_pos rfl]
      rw [if_neg (by omega), if_neg (by omega), if_neg (by omega), if_neg (by omega)]
      have := lenWord_hi msg.length
      simp only [show 4 * 14 - 56 = 0 from rfl, show 4 * 14 + 1 - 56 = 1 from rfl,
        show 4 * 14 + 2 - 56 = 2 from rfl, show 4 * 14 + 3 - 56 = 3 from rfl]
      exact this.symm
    · rw [if_neg h14, setChunkPaddingZeros_w, if_pos (by omega)]
      rw [if_pos (by omega), if_pos (by omega), if_pos (by omega), if_pos (by omega)]
      rfl

/-! Equivalence of the unrolled and rolled schedule expansions. -/

/-- The value of schedule entry `j` determined by the FIPS recurrence over a
base array `w` (entries below 16 are the block words themselves). -/
def schedW (w : Nat → Nat) (j : Nat) : Nat :=
  if h : j < 16 then w j
  else
    add32 (add32 (add32 (schedW w (j - 16)) (sigma0 (schedW w (j - 15)))) (schedW w (j - 7)))
      (sigma1 (schedW w (j - 2)))
termination_by j
decreasing_by all_goals omega

theorem schedW_lt (w : Nat → Nat) (j : Nat) (h : j < 16) : schedW w j = w j := by
  rw [schedW, dif_pos h]

theorem schedW_ge (w : Nat → Nat) (j : Nat) (h : 16 ≤ j) :
    schedW w j =
      add32 (add32 (add32 (schedW w (j - 16)) (sigma0 (schedW w (j - 15)))) (schedW w (j - 7)))
        (sigma1 (schedW w (j - 2))) := by
  rw [schedW]
  rw [dif_neg (by omega)]

theorem schedW_congr (w v : Nat → Nat) (hagree : ∀ t, t < 16 → w t = v t) :
    ∀ j, schedW w j = schedW v j := by
  intro j
  induction j using Nat.strong_induction_on with
  | _ j ih =>
    by_cases h : j < 16
    · rw [schedW_lt _ _ h, schedW_lt _ _ h]
      exact hagree j h
    · rw [schedW_ge w j (by omega), schedW_ge v j (by omega),
          ih (j - 16) (by omega), ih (j - 15) (by omega), ih (j - 7) (by omega),
          ih (j - 2) (by omega)]

theorem schedIterAt_eval (w v : Nat → Nat) (m : Nat) (hm : 16 ≤ m)
    (hv : ∀ t, t < m → v t = schedW w t) :
    ∀ t, t < m + 1 → schedIterAt v m t = schedW w t := by
  intro t ht
  simp only [schedIterAt]
  by_cases he : t = m
  · subst he
    rw [updW_self, hv (t - 16) (by omega), hv (t - 15) (by omega), hv (t - 7) (by omega),
        hv (t - 2) (by omega), schedW_ge w t hm]
    rfl
  · rw [updW_ne _ _ _ _ he]
    exact hv t (by omega)

theorem schedIterAt_ne (v : Nat → Nat) (m t : Nat) (h : t ≠ m) :
    schedIterAt v m t = v t := by
  simp only [schedIterAt]
  exact updW_ne _ _ _ _ h

theorem scheduleBlock_eval (w v : Nat → Nat) (i : Nat) (hi : 16 ≤ i)
    (hv : ∀ t, t < i → v t = schedW w t) :
    (∀ t, t < i + 8 → scheduleBlock v i t = schedW w t) ∧
      (∀ t, ¬ (i ≤ t ∧ t < i + 8) → scheduleBlock v i t = v t) := by
  have e0 := schedIterAt_eval w v i hi hv
  have e1 := schedIterAt_eval w _ (i + 1) (by omega) e0
  have e2 := schedIterAt_eval w _ (i + 2) (by omega) e1
  have e3 := schedIterAt_eval w _ (i + 3) (by omega) e2
  have e4 := schedIterAt_eval w _ (i + 4) (by omega) e3
  have e5 := schedIterAt_eval w _ (i + 5) (by omega) e4
  have e6 := schedIterAt_eval w _ (i + 6) (by omega) e5
  have e7 := schedIterAt_eval w _ (i + 7) (by omega) e6
  constructor
  · intro t ht
    exact e7 t (by omega)
  · intro t ht
    simp only [scheduleBlock]
    rw [schedIterAt_ne _ _ _ (by omega), schedIterAt_ne _ _ _ (by omega),
        schedIterAt_ne _ _ _ (by omega), schedIterAt_ne _ _ _ (by omega),
        schedIterAt_ne _ _ _ (by omega), schedIterAt_ne _ _ _ (by omega),
        schedIterAt_ne _ _ _ (by omega), schedIterAt_ne _ _ _ (by omega)]

theorem scheduleUnrolled_eval (w : Nat → Nat) (j : Nat) :
    scheduleUnrolled w j = if 16 ≤ j ∧ j < 64 then schedW w j else w j := by
  have hbase : ∀ t, t < 16 → w t = schedW w t := fun t ht => (schedW_lt w t ht).symm
  have b16 := scheduleBlock_eval w w 16 (by omega) hbase
  have h24 : ∀ t, t < 24 → scheduleBlock w 16 t = schedW w t := fun t ht => by
    by_cases hc : 16 ≤ t
    · exact b16.1 t (by omega)
    · rw [b16.2 t (by omega)]
      exact hbase t (by omega)
  have b24 := scheduleBlock_eval w _ 24 (by omega) h24
  have h32 : ∀ t, t < 32 → scheduleBlock (scheduleBlock w 16) 24 t = schedW w t := fun t ht => by
    by_cases hc : 24 ≤ t
    · exact b24.1 t (by omega)
    · rw [b24.2 t (by omega)]
      exact h24 t (by omega)
  have b32 := scheduleBlock_eval w _ 32 (by omega) h32
  have h40 : ∀ t, t < 40 →
      scheduleBlock (scheduleBlock (scheduleBlock w 16) 24) 32 t = schedW w t := fun t ht => by
    by_cases hc : 32 ≤ t
    · exact b32.1 t (by omega)
    · rw [b32.2 t (by omega)]
      exact h32 t (by omega)
  have b40 := scheduleBlock_eval w _ 40 (by omega) h40
  have h48 : ∀ t, t < 48 →
      scheduleBlock (scheduleBlock (scheduleBlock (scheduleBlock w 16) 24) 32) 40 t
        = schedW w t := fun t ht => by
    by_cases hc : 40 ≤ t
    · exact b40.1 t (by omega)
    · rw [b40.2 t (by omega)]
      exact h40 t (by omega)
  have b48 := scheduleBlock_eval w _ 48 (by omega) h48
  have h56 : ∀ t, t < 56 →
      scheduleBlock (scheduleBlock (scheduleBlock (scheduleBlock (scheduleBlock w 16) 24) 32) 40)
        48 t = schedW w t := fun t ht => by
    by_cases hc : 48 ≤ t
    · exact b48.1 t (by omega)
    · rw [b48.2 t (by omega)]
      exact h48 t (by omega)
  have b56 := scheduleBlock_eval w _ 56 (by omega) h56
  show scheduleBlock (scheduleBlock (scheduleBlock (scheduleBlock (scheduleBlock
    (scheduleBlock w 16) 24) 32) 40) 48) 56 j = _
  by_cases hc : 16 ≤ j ∧ j < 64
  · rw [if_pos hc]
    by_cases h56c : 56 ≤ j
    · exact b56.1 j (by omega)
    · rw [b56.2 j (by omega)]
      exact h56 j (by omega)
  · rw [if_neg hc]
    by_cases hlow : j < 16
    · rw [b56.2 j (by omega), b48.2 j (by omega), b40.2 j (by omega), b32.2 j (by omega),
          b24.2 j (by omega), b16.2 j (by omega)]
    · rw [b56.2 j (by omega), b48.2 j (by omega), b40.2 j (by omega), b32.2 j (by omega),
          b24.2 j (by omega), b16.2 j (by omega)]

theorem foldl_scheduleStep_eval :
    ∀ (n : Nat) (w : Nat → Nat) (j : Nat),
      ((List.range' 16 n).foldl scheduleStep w) j
        = if 16 ≤ j ∧ j < 16 + n then schedW w j else w j := by
  intro n
  induction n with
  | zero =>
    intro w j
    rw [if_neg (by omega)]
    rfl
  | succ n ih =>
    intro w j
    rw [List.range'_concat, List.foldl_append, List.foldl_cons, List.foldl_nil]
    have hread : ∀ t, t < 16 + n → ((List.range' 16 n).foldl scheduleStep w) t = schedW w t := by
      intro t ht
      rw [ih w t]
      by_cases hc : 16 ≤ t
      · rw [if_pos (by omega)]
      · rw [if_neg (by omega), schedW_lt w t (by omega)]
    simp only [scheduleStep]
    by_cases hj : j = 16 + 1 * n
    · subst hj
      rw [updW_self, if_pos (by omega), schedW_ge w (16 + 1 * n) (by omega),
          hread _ (by omega), hread _ (by omega), hread _ (by omega), hread _ (by omega)]
    · rw [updW_ne _ _ _ _ hj, ih w j]
      by_cases hc : 16 ≤ j ∧ j < 16 + n
      · rw [if_pos hc, if_pos (by omega)]
      · rw [if_neg hc, if_neg (by omega)]

theorem scheduleRolled_eval (w : Nat → Nat) (j : Nat) :
    scheduleRolled w j = if 16 ≤ j ∧ j < 64 then schedW w j else w j := by
  have h := foldl_scheduleStep_eval 48 w j
  show ((List.range' 16 48).foldl scheduleStep w) j = _
  rw [h]

theorem scheduleUnrolled_eq_rolled (w : Nat → Nat) :
    scheduleUnrolled w = scheduleRolled w := by
  funext j
  rw [scheduleUnrolled_eval, scheduleRolled_eval]

/-! Equivalence of the unrolled and rolled compression loops. -/

theorem compressIter_eq_refRound : compressIter = refRound := by
  funext w r i
  rfl

theorem compressLoop_eq_refRoundsAll (w : Nat → Nat) (r : Regs) :
    compressLoop w r = refRoundsAll w r := by
  show ([0, 8, 16, 24, 32, 40, 48, 56].foldl (compressBlock w) r) = _
  simp only [List.foldl_cons, List.foldl_nil, compressBlock, compressIter_eq_refRound]
  rfl

/-- The eight hash registers of a hasher state, as working registers. -/
def regsOf (s : Sha256) : Regs :=
  ⟨s.h0, s.h1, s.h2, s.h3, s.h4, s.h5, s.h6, s.h7⟩

/-- The chunk-processing step as the specification phrases it: rolled
schedule expansion, rolled rounds, feed-forward. -/
def refProcess (s : Sha256) : Sha256 :=
  let w := scheduleRolled s.w
  let r := refRoundsAll w (regsOf s)
  { w := w
    h0 := add32 s.h0 r.a
    h1 := add32 s.h1 r.b
    h2 := add32 s.h2 r.c
    h3 := add32 s.h3 r.d
    h4 := add32 s.h4 r.e
    h5 := add32 s.h5 r.f
    h6 := add32 s.h6 r.g
    h7 := add32 s.h7 r.h }

theorem processChunk_eq_refProcess (s : Sha256) : s.processChunk = refProcess s := by
  simp only [Sha256.processChunk, refProcess, regsOf]
  rw [scheduleUnrolled_eq_rolled, compressLoop_eq_refRoundsAll]

theorem foldl_refRound_congr (w1 w2 : Nat → Nat) :
    ∀ (l : List Nat), (∀ i, i ∈ l → w1 i = w2 i) →
      ∀ r : Regs, l.foldl (refRound w1) r = l.foldl (refRound w2) r := by
  intro l
  induction l with
  | nil =>
    intro _ r
    rfl
  | cons a l ih =>
    intro h r
    rw [List.foldl_cons, List.foldl_cons]
    have ha : refRound w1 r a = refRound w2 r a := by
      simp only [refRound]
      rw [h a (List.mem_cons_self a l)]
    rw [ha]
    exact ih (fun i hi => h i (List.mem_cons_of_mem a hi)) _

theorem refRoundsAll_congr (w1 w2 : Nat → Nat) (h : ∀ i, i < 64 → w1 i = w2 i) (r : Regs) :
    refRoundsAll w1 r = refRoundsAll w2 r := by
  show (List.range' 0 64).foldl (refRound w1) r = (List.range' 0 64).foldl (refRound w2) r
  apply foldl_refRound_congr
  intro i hi
  have := List.mem_range'.1 hi
  obtain ⟨t, ht, rfl⟩ := this
  exact h _ (by omega)

theorem processChunk_refCompress (s : Sha256) (block : Nat → Nat)
    (hagree : ∀ j, j < 16 → s.w j = block j) :
    regsOf s.processChunk = refCompress (regsOf s) block := by
  have hsched : ∀ t, t < 64 → scheduleUnrolled s.w t = scheduleRolled block t := by
    intro t ht
    rw [scheduleUnrolled_eval, scheduleRolled_eval]
    by_cases hc : 16 ≤ t ∧ t < 64
    · rw [if_pos hc, if_pos hc, schedW_congr s.w block (fun u hu => hagree u hu) t]
    · rw [if_neg hc, if_neg hc]
      exact hagree t (by omega)
  simp only [Sha256.processChunk, refCompress, regsOf]
  rw [compressLoop_eq_refRoundsAll]
  rw [refRoundsAll_congr (scheduleUnrolled s.w) (scheduleRolled block) hsched]

/-! Pointwise characterisation of the padded message. -/

theorem lenBytesBE_length (L : Nat) : (lenBytesBE L).length = 8 := by
  simp [lenBytesBE]

theorem refPad_length (msg : List Nat) :
    (refPad msg).length = msg.length + 9 + padZeroCount msg.length := by
  simp [refPad, lenBytesBE_length, List.length_append, List.length_replicate]
  omega

theorem getD_replicate_lt (n m a d : Nat) (h : m < n) :
    (List.replicate n a).getD m d = a := by
  rw [List.getD_eq_getElem?_getD, List.getElem?_replicate_of_lt h]
  rfl

theorem refPad_getD_msg (msg : List Nat) (t : Nat) (h : t < msg.length) :
    (refPad msg).getD t 0 = msg.getD t 0 := by
  exact List.getD_append _ _ _ _ h

theorem refPad_getD_marker (msg : List Nat) (t : Nat) (h : t = msg.length) :
    (refPad msg).getD t 0 = 128 := by
  subst h
  rw [refPad, List.getD_append_right _ _ _ _ (le_refl _), Nat.sub_self]
  rfl

theorem refPad_getD_zero (msg : List Nat) (t : Nat) (h1 : msg.length < t)
    (h2 : t < msg.length + 1 + padZeroCount msg.length) :
    (refPad msg).getD t 0 = 0 := by
  rw [refPad, List.getD_append_right _ _ _ _ (by omega)]
  have ht : t - msg.length = (t - msg.length - 1) + 1 := by omega
  rw [ht, List.getD_cons_succ]
  rw [List.getD_append _ _ _ _ (by simp [List.length_replicate]; omega)]
  exact getD_replicate_lt _ _ _ _ (by omega)

theorem refPad_getD_len (msg : List Nat) (t : Nat)
    (h1 : msg.length + 1 + padZeroCount msg.length ≤ t) :
    (refPad msg).getD t 0 =
      (lenBytesBE msg.length).getD (t - (msg.length + 1 + padZeroCount msg.length)) 0 := by
  rw [refPad, List.getD_append_right _ _ _ _ (by omega)]
  have ht : t - msg.length = (t - msg.length - 1) + 1 := by omega
  rw [ht, List.getD_cons_succ]
  rw [List.getD_append_right _ _ _ _ (by simp [List.length_replicate]; omega)]
  congr 1
  simp [List.length_replicate]
  omega

theorem setTail_w_le (s : Sha256) (msg : List Nat) (j : Nat)
    (hrem : msg.length % 64 ≤ 55) (hj : j < 16) :
    (s.setTail msg).w j =
      wordBE (tailByteWithLen msg (4 * j)) (tailByteWithLen msg (4 * j + 1))
        (tailByteWithLen msg (4 * j + 2)) (tailByteWithLen msg (4 * j + 3)) := by
  by_cases hz : msg.length % 64 = 0
  · exact setTail_w_zero s msg j hz hj
  · exact setTail_w_pos s msg j hz hrem hj

theorem padZeroCount_le (L : Nat) (h : L % 64 ≤ 55) : padZeroCount L = 55 - L % 64 := by
  simp only [padZeroCount]
  omega

theorem padZeroCount_gt (L : Nat) (h : 56 ≤ L % 64) : padZeroCount L = 119 - L % 64 := by
  simp only [padZeroCount]
  omega

theorem tailByteWithLen_refPad (msg : List Nat) (t : Nat)
    (hrem : msg.length % 64 ≤ 55) (ht : t < 64) :
    tailByteWithLen msg t = (refPad msg).getD (64 * (msg.length / 64) + t) 0 := by
  have hk := padZeroCount_le msg.length hrem
  by_cases h1 : t < msg.length % 64
  · rw [tbwl_msg msg t h1, refPad_getD_msg msg _ (by omega)]
    exact getD_congr msg _ _ (by omega)
  · by_cases h2 : t = msg.length % 64
    · rw [tbwl_marker msg t h2, refPad_getD_marker msg _ (by omega)]
    · by_cases h3 : t < 56
      · rw [tbwl_zero msg t (by omega) h3, refPad_getD_zero msg _ (by omega) (by omega)]
      · rw [tbwl_len msg t hrem (by omega), refPad_getD_len msg _ (by omega)]
        congr 1
        omega

theorem tailByteNoLen_refPad (msg : List Nat) (t : Nat)
    (hrem : 56 ≤ msg.length % 64) (ht : t < 64) :
    tailByteNoLen msg t = (refPad msg).getD (64 * (msg.length / 64) + t) 0 := by
  have hk := padZeroCount_gt msg.length hrem
  by_cases h1 : t < msg.length % 64
  · rw [tbnl_msg msg t h1, refPad_getD_msg msg _ (by omega)]
    exact getD_congr msg _ _ (by omega)
  · by_cases h2 : t = msg.length % 64
    · rw [tbnl_marker msg t h2, refPad_getD_marker msg _ (by omega)]
    · rw [tbnl_zero msg t (by omega), refPad_getD_zero msg _ (by omega) (by omega)]

theorem tail2Byte_refPad (msg : List Nat) (t : Nat)
    (hrem : 56 ≤ msg.length % 64) (ht : t < 64) :
    tail2Byte msg t = (refPad msg).getD (64 * (msg.length / 64 + 1) + t) 0 := by
  have hk := padZeroCount_gt msg.length hrem
  by_cases h3 : t < 56
  · rw [show tail2Byte msg t = 0 from by simp only [tail2Byte]; rw [if_pos h3]]
    rw [refPad_getD_zero msg _ (by omega) (by omega)]
  · rw [show tail2Byte msg t = (lenBytesBE msg.length).getD (t - 56) 0 from by
      simp only [tail2Byte]; rw [if_neg h3]]
    rw [refPad_getD_len msg _ (by omega)]
    congr 1
    omega

theorem blockWords_full (msg : List Nat) (b j : Nat) (hb : b < msg.length / 64) (hj : j < 16) :
    refBlockWords msg b j = msgWord msg (b * 64 + 4 * j) := by
  simp only [refBlockWords, msgWord]
  have hlt : 64 * b + 4 * j + 4 ≤ msg.length := by
    have : 64 * (b + 1) ≤ 64 * (msg.length / 64) := by omega
    have h2 : 64 * (msg.length / 64) ≤ msg.length := by omega
    omega
  rw [refPad_getD_msg msg _ (by omega), refPad_getD_msg msg _ (by omega),
      refPad_getD_msg msg _ (by omega), refPad_getD_msg msg _ (by omega)]
  exact wordBE_congr (getD_congr msg _ _ (by omega)) (getD_congr msg _ _ (by omega))
    (getD_congr msg _ _ (by omega)) (getD_congr msg _ _ (by omega))

theorem setTail_blockWords (s : Sha256) (msg : List Nat) (j : Nat)
    (hrem : msg.length % 64 ≤ 55) (hj : j < 16) :
    (s.setTail msg).w j = refBlockWords msg (msg.length / 64) j := by
  rw [setTail_w_le s msg j hrem hj]
  simp only [refBlockWords, msgWord]
  exact wordBE_congr
    ((tailByteWithLen_refPad msg (4 * j) hrem (by omega)).trans
      (getD_congr (refPad msg) _ _ (by omega)))
    ((tailByteWithLen_refPad msg (4 * j + 1) hrem (by omega)).trans
      (getD_congr (refPad msg) _ _ (by omega)))
    ((tailByteWithLen_refPad msg (4 * j + 2) hrem (by omega)).trans
      (getD_congr (refPad msg) _ _ (by omega)))
    ((tailByteWithLen_refPad msg (4 * j + 3) hrem (by omega)).trans
      (getD_congr (refPad msg) _ _ (by omega)))

theorem setTail_blockWordsNoLen (s : Sha256) (msg : List Nat) (j : Nat)
    (hrem : 56 ≤ msg.length % 64) (hj : j < 16) :
    (s.setTail msg).w j = refBlockWords msg (msg.length / 64) j := by
  rw [setTail_w_gt s msg j hrem hj]
  simp only [refBlockWords, msgWord]
  exact wordBE_congr
    ((tailByteNoLen_refPad msg (4 * j) hrem (by omega)).trans
      (getD_congr (refPad msg) _ _ (by omega)))
    ((tailByteNoLen_refPad msg (4 * j + 1) hrem (by omega)).trans
      (getD_congr (refPad msg) _ _ (by omega)))
    ((tailByteNoLen_refPad msg (4 * j + 2) hrem (by omega)).trans
      (getD_congr (refPad msg) _ _ (by omega)))
    ((tailByteNoLen_refPad msg (4 * j + 3) hrem (by omega)).trans
      (getD_congr (refPad msg) _ _ (by omega)))

theorem setTail2_blockWords (s : Sha256) (msg : List Nat) (j : Nat)
    (hrem : 56 ≤ msg.length % 64) (hj : j < 16) :
    (s.setTail2 msg).w j = refBlockWords msg (msg.length / 64 + 1) j := by
  rw [setTail2_w s msg j hj]
  simp only [refBlockWords, msgWord]
  exact wordBE_congr
    ((tail2Byte_refPad msg (4 * j) hrem (by omega)).trans
      (getD_congr (refPad msg) _ _ (by omega)))
    ((tail2Byte_refPad msg (4 * j + 1) hrem (by omega)).trans
      (getD_congr (refPad msg) _ _ (by omega)))
    ((tail2Byte_refPad msg (4 * j + 2) hrem (by omega)).trans
      (getD_congr (refPad msg) _ _ (by omega)))
    ((tail2Byte_refPad msg (4 * j + 3) hrem (by omega)).trans
      (getD_congr (refPad msg) _ _ (by omega)))

theorem refNumBlocks_le (msg : List Nat) (hrem : msg.length % 64 ≤ 55) :
    refNumBlocks msg = msg.length / 64 + 1 := by
  simp only [refNumBlocks, refPad_length, padZeroCount_le msg.length hrem]
  omega

theorem refNumBlocks_gt (msg : List Nat) (hrem : 56 ≤ msg.length % 64) :
    refNumBlocks msg = msg.length / 64 + 2 := by
  simp only [refNumBlocks, refPad_length, padZeroCount_gt msg.length hrem]
  omega

theorem regsOf_setChunk (s : Sha256) (msg : List Nat) (i : Nat) :
    regsOf (s.setChunk msg i) = regsOf s := rfl

theorem regsOf_setTail (s : Sha256) (msg : List Nat) :
    regsOf (s.setTail msg) = regsOf s := by
  simp only [Sha256.setTail]
  by_cases hz : msg.length % 64 = 0
  · rw [if_pos hz]
    rfl
  · rw [if_neg hz]
    simp only [Sha256.setChunkLast]
    by_cases h1 : (msg.length - msg.length / 64 * 64) / 4 + 1 ≤ 14
    · rw [if_pos h1]
      rfl
    · rw [if_neg h1]
      by_cases h2 : (msg.length - msg.length / 64 * 64) / 4 + 1 = 15
      · rw [if_pos h2]
        rfl
      · rw [if_neg h2]
        rfl

theorem regsOf_setTail2 (s : Sha256) (msg : List Nat) :
    regsOf (s.setTail2 msg) = regsOf s := rfl

theorem chunkFold_eval (msg : List Nat) (s0 : Sha256) :
    ∀ c, c ≤ msg.length / 64 →
      ((List.range' 0 c).foldl
        (fun (p : Sha256 × Nat) i => ((p.1.setChunk msg i).processChunk, p.2 + 1)) (s0, 0)).2
        = c ∧
      regsOf (((List.range' 0 c).foldl
        (fun (p : Sha256 × Nat) i => ((p.1.setChunk msg i).processChunk, p.2 + 1)) (s0, 0)).1)
        = (List.range' 0 c).foldl (fun hv b => refCompress hv (refBlockWords msg b)) (regsOf s0) := by
  intro c
  induction c with
  | zero =>
    intro _
    exact ⟨rfl, rfl⟩
  | succ c ih =>
    intro hc
    have ihc := ih (by omega)
    simp only [List.range'_concat, List.foldl_append, List.foldl_cons, List.foldl_nil,
      Nat.zero_add, Nat.one_mul]
    constructor
    · rw [ihc.1]
    · have hagree : ∀ j, j < 16 →
          ((((List.range' 0 c).foldl
            (fun (p : Sha256 × Nat) i => ((p.1.setChunk msg i).processChunk, p.2 + 1))
            (s0, 0)).1).setChunk msg c).w j = refBlockWords msg c j := by
        intro j hj
        rw [setChunk_w, if_pos hj, blockWords_full msg c j (by omega) hj]
      rw [processChunk_refCompress _ (refBlockWords msg c) hagree]
      rw [show regsOf ((((List.range' 0 c).foldl
            (fun (p : Sha256 × Nat) i => ((p.1.setChunk msg i).processChunk, p.2 + 1))
            (s0, 0)).1).setChunk msg c)
          = regsOf (((List.range' 0 c).foldl
            (fun (p : Sha256 × Nat) i => ((p.1.setChunk msg i).processChunk, p.2 + 1))
            (s0, 0)).1) from rfl]
      rw [ihc.2]

theorem digestRun_eval (s : Sha256) (msg : List Nat) :
    regsOf ((s.digestRun msg).1) =
      (List.range' 0 (refNumBlocks msg)).foldl
        (fun hv b => refCompress hv (refBlockWords msg b)) refIV ∧
    (s.digestRun msg).2 = msg.length / 64 + 1 + (if 55 < msg.length % 64 then 1 else 0) := by
  have hfold := chunkFold_eval msg
    { s with h0 := 0x6a09e667, h1 := 0xbb67ae85, h2 := 0x3c6ef372, h3 := 0xa54ff53a,
             h4 := 0x510e527f, h5 := 0x9b05688c, h6 := 0x1f83d9ab, h7 := 0x5be0cd19 }
    (msg.length / 64) (le_refl _)
  simp only [Sha256.digestRun]
  by_cases hgt : 55 < msg.length % 64
  · rw [if_pos hgt, if_pos hgt]
    constructor
    · rw [processChunk_refCompress _ (refBlockWords msg (msg.length / 64 + 1))
        (fun j hj => setTail2_blockWords _ msg j (by omega) hj)]
      rw [regsOf_setTail2]
      rw [processChunk_refCompress _ (refBlockWords msg (msg.length / 64))
        (fun j hj => setTail_blockWordsNoLen _ msg j (by omega) hj)]
      rw [regsOf_setTail]
      rw [hfold.2]
      rw [refNumBlocks_gt msg (by omega)]
      rw [show msg.length / 64 + 2 = (msg.length / 64 + 1) + 1 from rfl]
      rw [List.range'_concat, List.foldl_append, List.foldl_cons, List.foldl_nil,
          List.range'_concat, List.foldl_append, List.foldl_cons, List.foldl_nil]
      simp only [Nat.zero_add, Nat.one_mul]
      rfl
    · show _ + 1 + 1 = _
      rw [hfold.1]
  · rw [if_neg hgt, if_neg hgt]
    constructor
    · rw [processChunk_refCompress _ (refBlockWords msg (msg.length / 64))
        (fun j hj => setTail_blockWords _ msg j (by omega) hj)]
      rw [regsOf_setTail]
      rw [hfold.2]
      rw [refNumBlocks_le msg (by omega)]
      rw [List.range'_concat, List.foldl_append, List.foldl_cons, List.foldl_nil]
      simp only [Nat.zero_add, Nat.one_mul]
      rfl
    · show _ + 1 = _
      rw [hfold.1]

theorem digest_eq_refDigest (s : Sha256) (msg : List Nat) :
    s.digest msg = refDigest msg := by
  have h := (digestRun_eval s msg).1
  have hA : ((s.digestRun msg).1).h0 = ((List.range' 0 (refNumBlocks msg)).foldl
      (fun hv b => refCompress hv (refBlockWords msg b)) refIV).a := congrArg Regs.a h
  have hB : ((s.digestRun msg).1).h1 = ((List.range' 0 (refNumBlocks msg)).foldl
      (fun hv b => refCompress hv (refBlockWords msg b)) refIV).b := congrArg Regs.b h
  have hC : ((s.digestRun msg).1).h2 = ((List.range' 0 (refNumBlocks msg)).foldl
      (fun hv b => refCompress hv (refBlockWords msg b)) refIV).c := congrArg Regs.c h
  have hD : ((s.digestRun msg).1).h3 = ((List.range' 0 (refNumBlocks msg)).foldl
      (fun hv b => refCompress hv (refBlockWords msg b)) refIV).d := congrArg Regs.d h
  have hE : ((s.digestRun msg).1).h4 = ((List.range' 0 (refNumBlocks msg)).foldl
      (fun hv b => refCompress hv (refBlockWords msg b)) refIV).e := congrArg Regs.e h
  have hF : ((s.digestRun msg).1).h5 = ((List.range' 0 (refNumBlocks msg)).foldl
      (fun hv b => refCompress hv (refBlockWords msg b)) refIV).f := congrArg Regs.f h
  have hG : ((s.digestRun msg).1).h6 = ((List.range' 0 (refNumBlocks msg)).foldl
      (fun hv b => refCompress hv (refBlockWords msg b)) refIV).g := congrArg Regs.g h
  have hH : ((s.digestRun msg).1).h7 = ((List.range' 0 (refNumBlocks msg)).foldl
      (fun hv b => refCompress hv (refBlockWords msg b)) refIV).h := congrArg Regs.h h
  simp only [Sha256.digest, refDigest]
  rw [hA, hB, hC, hD, hE, hF, hG, hH]

/-!
Checked model of the panicking operations.  Rust slice indexing, `usize`
subtraction and (in debug profile) `usize` multiplication panic when out of
bounds or overflowing; each data-dependent access of `digest` is guarded
here at its call site, returning `none` where the source would panic.  The
schedule-array indices inside `process_chunk` and the loop of `set_chunk`
are static literals in `0..64` and need no data-dependent guard.
-/

/-- Checked `set_chunk`: the slice `msg[start..start + 64]` requires
`start + 64 ≤ msg.len()`. -/
def Sha256.setChunkC (s : Sha256) (msg : List Nat) (index : Nat) : Option Sha256 :=
  if index * 64 + 64 ≤ msg.length then some (s.setChunk msg index) else none

/-- Checked `set_chunk_msg_len`: `msg_len * 8` is a `usize` multiplication,
guarded against 64-bit overflow. -/
def Sha256.setChunkMsgLenC (s : Sha256) (msg : List Nat) : Option Sha256 :=
  if msg.length * 8 < M64 then some (s.setChunkMsgLen msg) else none

/-- Checked `set_chunk_last`: `msg_len - start` must not underflow, the
slices `msg[start..end_u32s]` and `msg[end_u32s..]` must be ordered and in
bounds, the writes `w[n_u32s]` and `bytes[n_rem_bytes]` must be in bounds,
and the length-field branch performs the checked bit-length multiplication. -/
def Sha256.setChunkLastC (s : Sha256) (msg : List Nat) (index : Nat) : Option Sha256 :=
  let msgLen := msg.length
  let start := index * 64
  let nU32s := (msgLen - start) / 4
  let nRemBytes := msgLen % 4
  let endU32s := msgLen - nRemBytes
  if start ≤ msgLen ∧ start ≤ endU32s ∧ endU32s ≤ msgLen ∧ nU32s < 64 ∧ nRemBytes < 4 then
    if nU32s + 1 ≤ 14 ∧ ¬ msgLen * 8 < M64 then none
    else some (s.setChunkLast msg index)
  else none

/-- `Sha256::digest` with every panicking access checked. -/
def Sha256.digestRunChecked (s : Sha256) (msg : List Nat) : Option (Sha256 × Nat) :=
  let s0 : Sha256 := { s with
    h0 := 0x6a09e667, h1 := 0xbb67ae85, h2 := 0x3c6ef372, h3 := 0xa54ff53a,
    h4 := 0x510e527f, h5 := 0x9b05688c, h6 := 0x1f83d9ab, h7 := 0x5be0cd19 }
  let nChunksSaturated := msg.length / 64
  let p1 := (List.range' 0 nChunksSaturated).foldl
    (fun (p : Option (Sha256 × Nat)) i => p.bind (fun q =>
      (q.1.setChunkC msg i).map (fun t => (t.processChunk, q.2 + 1)))) (some (s0, 0))
  let p2 := p1.bind (fun q =>
    if msg.length % 64 = 0 then
      (((q.1.setChunkPaddingStartByte).setChunkPaddingZeros 1).setChunkMsgLenC msg).map
        (fun t => (t.processChunk, q.2 + 1))
    else
      (q.1.setChunkLastC msg nChunksSaturated).map (fun t => (t.processChunk, q.2 + 1)))
  if 55 < msg.length % 64 then
    p2.bind (fun q => ((q.1.setChunkPaddingZeros 0).setChunkMsgLenC msg).map
      (fun t => (t.processChunk, q.2 + 1)))
  else p2

/-- The checked digest output. -/
def Sha256.digestChecked (s : Sha256) (msg : List Nat) : Option (List Nat) :=
  (s.digestRunChecked msg).map (fun p =>
    toBytesBE32 p.1.h0 ++ toBytesBE32 p.1.h1 ++ toBytesBE32 p.1.h2 ++ toBytesBE32 p.1.h3 ++
    toBytesBE32 p.1.h4 ++ toBytesBE32 p.1.h5 ++ toBytesBE32 p.1.h6 ++ toBytesBE32 p.1.h7)

theorem checkedFold_eq (msg : List Nat) (s0 : Sha256) :
    ∀ c, c ≤ msg.length / 64 →
      (List.range' 0 c).foldl
        (fun (p : Option (Sha256 × Nat)) i => p.bind (fun q =>
          (q.1.setChunkC msg i).map (fun t => (t.processChunk, q.2 + 1)))) (some (s0, 0))
        = some ((List.range' 0 c).foldl
          (fun (p : Sha256 × Nat) i => ((p.1.setChunk msg i).processChunk, p.2 + 1)) (s0, 0)) := by
  intro c
  induction c with
  | zero =>
    intro _
    rfl
  | succ c ih =>
    intro hc
    simp only [List.range'_concat, List.foldl_append, List.foldl_cons, List.foldl_nil,
      Nat.zero_add, Nat.one_mul]
    rw [ih (by omega)]
    rw [Option.some_bind]
    have hguard : c * 64 + 64 ≤ msg.length := by
      have h1 : c + 1 ≤ msg.length / 64 := hc
      have h2 : 64 * (msg.length / 64) ≤ msg.length := by omega
      omega
    simp only [Sha256.setChunkC]
    rw [if_pos hguard, Option.map_some']

theorem digestRunChecked_eq (s : Sha256) (msg : List Nat)
    (h : msg.length < 2305843009213693952) :
    s.digestRunChecked msg = some (s.digestRun msg) := by
  have hbits : msg.length * 8 < M64 := by
    simp only [M64]
    omega
  simp only [Sha256.digestRunChecked, Sha256.digestRun, Sha256.setTail, Sha256.setTail2]
  rw [checkedFold_eq msg _ (msg.length / 64) (le_refl _)]
  simp only [Option.some_bind]
  by_cases hgt : 55 < msg.length % 64
  · rw [if_pos hgt, if_pos hgt, if_neg (by omega : ¬ msg.length % 64 = 0),
        if_neg (by omega : ¬ msg.length % 64 = 0)]
    simp only [Sha256.setChunkLastC]
    rw [if_pos ⟨by omega, by omega, by omega, by omega, by omega⟩]
    rw [if_neg (fun hcon => hcon.2 hbits)]
    simp only [Option.map_some', Option.some_bind, Sha256.setChunkMsgLenC]
    rw [if_pos hbits]
    simp only [Option.map_some']
  · rw [if_neg hgt, if_neg hgt]
    by_cases hz : msg.length % 64 = 0
    · rw [if_pos hz, if_pos hz]
      simp only [Sha256.setChunkMsgLenC]
      rw [if_pos hbits]
      simp only [Option.map_some']
    · rw [if_neg hz, if_neg hz]
      simp only [Sha256.setChunkLastC]
      rw [if_pos ⟨by omega, by omega, by omega, by omega, by omega⟩]
      rw [if_neg (fun hcon => hcon.2 hbits)]
      simp only [Option.map_some']

theorem digestChecked_eq (s : Sha256) (msg : List Nat)
    (h : msg.length < 2305843009213693952) :
    s.digestChecked msg = some (s.digest msg) := by
  simp only [Sha256.digestChecked, Sha256.digest]
  rw [digestRunChecked_eq s msg h, Option.map_some']

/-! The claims. -/

/-- C1: for every message of length below 2^61 bytes, `digest` returns the
FIPS 180-4 SHA-256 digest of the message: it equals the output of the
independent reference definition `refDigest` built from the padded byte
stream, the rolled schedule recurrence and the rolled 64-round
compression. -/
theorem digest_matches_fips_reference (s : Sha256) (msg : List Nat)
    (h : msg.length < 2305843009213693952) :
    s.digest msg = refDigest msg :=
  digest_eq_refDigest s msg

theorem digest_matches_fips_reference_witness :
    ([104, 101, 108, 108, 111] : List Nat).length < 2305843009213693952 ∧
      Sha256.new.digest [104, 101, 108, 108, 111] = refDigest [104, 101, 108, 108, 111] :=
  ⟨by decide, digest_matches_fips_reference Sha256.new [104, 101, 108, 108, 111] (by decide)⟩

/-- C2: a `digest` call processes exactly `ceil((L + 9) / 64)` chunks,
written here as `(L + 9 + 63) / 64`: `L / 64 + 1` chunks when
`L % 64 ≤ 55` and `L / 64 + 2` chunks when `55 < L % 64`. -/
theorem digest_chunk_count (s : Sha256) (msg : List Nat) :
    (s.digestRun msg).2 = (msg.length + 9 + 63) / 64 ∧
    (msg.length % 64 ≤ 55 → (s.digestRun msg).2 = msg.length / 64 + 1) ∧
    (55 < msg.length % 64 → (s.digestRun msg).2 = msg.length / 64 + 2) := by
  have h := (digestRun_eval s msg).2
  by_cases hgt : 55 < msg.length % 64
  · rw [if_pos hgt] at h
    exact ⟨by rw [h]; omega, fun hle => by omega, fun _ => by rw [h]⟩
  · rw [if_neg hgt] at h
    exact ⟨by rw [h]; omega, fun _ => by rw [h], fun hg => by omega⟩

theorem digest_chunk_count_witness :
    (Sha256.new.digestRun (List.replicate 56 97)).2 = 2 ∧
      (Sha256.new.digestRun []).2 = 1 :=
  ⟨((digest_chunk_count Sha256.new (List.replicate 56 97)).2.2 (by decide)).trans (by decide),
   ((digest_chunk_count Sha256.new []).2.1 (by decide)).trans (by decide)⟩

/-- C3: when `L % 64 ≤ 55` the single tail chunk holds the remaining
`L % 64` message bytes as big-endian words, then the `0x80` marker byte,
then zero bytes, then the 8-byte big-endian bit length `L * 8` in the last
8 bytes (words 14 and 15); for `L ≡ 0 (mod 64)` the chunk starts directly
with the marker and still carries the length field. -/
theorem tail_chunk_with_length_field (s : Sha256) (msg : List Nat) (j : Nat)
    (hrem : msg.length % 64 ≤ 55) (hj : j < 16) :
    (s.setTail msg).w j =
      wordBE (tailByteWithLen msg (4 * j)) (tailByteWithLen msg (4 * j + 1))
        (tailByteWithLen msg (4 * j + 2)) (tailByteWithLen msg (4 * j + 3)) :=
  setTail_w_le s msg j hrem hj

theorem tail_chunk_with_length_field_witness :
    (([1, 2, 3] : List Nat).length % 64 ≤ 55 ∧ (0 : Nat) < 16) ∧
      (Sha256.new.setTail [1, 2, 3]).w 0 =
        wordBE (tailByteWithLen [1, 2, 3] (4 * 0)) (tailByteWithLen [1, 2, 3] (4 * 0 + 1))
          (tailByteWithLen [1, 2, 3] (4 * 0 + 2)) (tailByteWithLen [1, 2, 3] (4 * 0 + 3)) :=
  ⟨⟨by decide, by decide⟩,
   tail_chunk_with_length_field Sha256.new [1, 2, 3] 0 (by decide) (by decide)⟩

/-- C4: when `56 ≤ L % 64` the first tail chunk holds the remaining message
bytes, the `0x80` marker and zeros only (no length field, the marker landing
inside word 15 when `L % 64 ≥ 60`), and the second tail chunk holds 56 zero
bytes followed by the 8-byte big-endian bit length `L * 8`. -/
theorem tail_chunks_without_length_field (s : Sha256) (msg : List Nat) (j : Nat)
    (hrem : 56 ≤ msg.length % 64) (hj : j < 16) :
    (s.setTail msg).w j =
      wordBE (tailByteNoLen msg (4 * j)) (tailByteNoLen msg (4 * j + 1))
        (tailByteNoLen msg (4 * j + 2)) (tailByteNoLen msg (4 * j + 3)) ∧
    (s.setTail2 msg).w j =
      wordBE (tail2Byte msg (4 * j)) (tail2Byte msg (4 * j + 1))
        (tail2Byte msg (4 * j + 2)) (tail2Byte msg (4 * j + 3)) :=
  ⟨setTail_w_gt s msg j hrem hj, setTail2_w s msg j hj⟩

theorem tail_chunks_without_length_field_witness :
    (56 ≤ (List.replicate 56 9 : List Nat).length % 64 ∧ (14 : Nat) < 16) ∧
      (Sha256.new.setTail (List.replicate 56 9)).w 14 =
        wordBE (tailByteNoLen (List.replicate 56 9) (4 * 14))
          (tailByteNoLen (List.replicate 56 9) (4 * 14 + 1))
          (tailByteNoLen (List.replicate 56 9) (4 * 14 + 2))
          (tailByteNoLen (List.replicate 56 9) (4 * 14 + 3)) ∧
      (Sha256.new.setTail2 (List.replicate 56 9)).w 14 =
        wordBE (tail2Byte (List.replicate 56 9) (4 * 14))
          (tail2Byte (List.replicate 56 9) (4 * 14 + 1))
          (tail2Byte (List.replicate 56 9) (4 * 14 + 2))
          (tail2Byte (List.replicate 56 9) (4 * 14 + 3)) :=
  ⟨⟨by decide, by decide⟩,
   tail_chunks_without_length_field Sha256.new (List.replicate 56 9) 14 (by decide) (by decide)⟩

/-- C5: the 8-way partially unrolled schedule-expansion loop is extensionally
equal to the rolled ascending recurrence
`W[i] = W[i-16] + σ0(W[i-15]) + W[i-7] + σ1(W[i-2])` for `i = 16..63`,
all additions modulo 2^32. -/
theorem schedule_unrolled_eq_rolled : ∀ w : Nat → Nat, scheduleUnrolled w = scheduleRolled w :=
  scheduleUnrolled_eq_rolled

/-- C6: every chunk pass applies exactly 64 compression rounds in index
order 0..63 with `T1 = h + Σ1(e) + Ch(e,f,g) + K[i] + W[i]`,
`T2 = Σ0(a) + Maj(a,b,c)` and rotation
`(h,g,f,e,d,c,b,a) = (g,f,e, d+T1, c,b,a, T1+T2)`, then updates each of
H0..H7 by wrapping addition of the corresponding final working register:
`process_chunk` coincides with the specification-shaped `refProcess`. -/
theorem process_chunk_rounds_and_feed_forward (s : Sha256) :
    s.processChunk = refProcess s :=
  processChunk_eq_refProcess s

set_option maxRecDepth 1000000 in
/-- C7: the known test vectors: the digest of the empty message is
e3b0c44298fc1c149afbf4c8996fb92427ae41e4649b934ca495991b7852b855 and the
digest of "hello" is
2cf24dba5fb0a30e26e83b2ac5b9e29e1b161e5c1fa7425e73043362938b9824, rendered
here as byte lists. -/
theorem digest_known_vectors :
    Sha256.new.digest [] =
      [227, 176, 196, 66, 152, 252, 28, 20, 154, 251, 244, 200, 153, 111, 185, 36,
       39, 174, 65, 228, 100, 155, 147, 76, 164, 149, 153, 27, 120, 82, 184, 85] ∧
    Sha256.new.digest [104, 101, 108, 108, 111] =
      [44, 242, 77, 186, 95, 176, 163, 14, 38, 232, 59, 42, 197, 185, 226, 158,
       27, 22, 30, 92, 31, 167, 66, 94, 115, 4, 51, 98, 147, 139, 152, 36] := by
  constructor
  · decide
  · decide

/-- C8: the digest is exactly 32 bytes: the concatenation of H0..H7 in
register order, each serialised as a big-endian 32-bit word. -/
theorem digest_output_format (s : Sha256) (msg : List Nat) :
    (s.digest msg).length = 32 ∧
    s.digest msg =
      toBytesBE32 ((s.digestRun msg).1).h0 ++ toBytesBE32 ((s.digestRun msg).1).h1 ++
      toBytesBE32 ((s.digestRun msg).1).h2 ++ toBytesBE32 ((s.digestRun msg).1).h3 ++
      toBytesBE32 ((s.digestRun msg).1).h4 ++ toBytesBE32 ((s.digestRun msg).1).h5 ++
      toBytesBE32 ((s.digestRun msg).1).h6 ++ toBytesBE32 ((s.digestRun msg).1).h7 := by
  constructor
  · rfl
  · rfl

/-- C9: `digest` is deterministic and free of cross-call contamination: its
result does not depend on the hasher's prior state (in particular not on the
all-zero registers of `new`), because each call resets H0..H7 to the IV and
fully overwrites the first 16 schedule words before each compression; hence
a repeated call on the same hasher returns the same digest. -/
theorem digest_deterministic (s1 s2 : Sha256) (msg : List Nat) :
    s1.digest msg = s2.digest msg ∧
    ((s1.digestRun msg).1).digest msg = s1.digest msg := by
  constructor
  · rw [digest_eq_refDigest, digest_eq_refDigest]
  · rw [digest_eq_refDigest, digest_eq_refDigest]

/-- C10: for every message of length below 2^61 bytes, `digest` is total and
never panics: the checked model, which guards every message-slice access,
every data-dependent schedule index and the bit-length multiplication at the
source's call sites, succeeds and returns the digest (the word arithmetic
itself is wrapping by construction and cannot fail). -/
theorem digest_never_panics (s : Sha256) (msg : List Nat)
    (h : msg.length < 2305843009213693952) :
    s.digestChecked msg = some (s.digest msg) :=
  digestChecked_eq s msg h

theorem digest_never_panics_witness :
    ([255, 254] : List Nat).length < 2305843009213693952 ∧
      Sha256.new.digestChecked [255, 254] = some (Sha256.new.digest [255, 254]) :=
  ⟨by decide, digest_never_panics Sha256.new [255, 254] (by decide)⟩
